import Mathlib

/-
  Verification of the board constraint model and collapse engine of
  bastard-minesweeper (src/src/lib.rs).

  Shallow embedding notes:
  * `Array2<Cell>` is modelled as a structure carrying the two dimensions and a
    total cell function; all operations of the source only read or write
    in-bounds positions, and theorems about user-supplied coordinates carry an
    in-bounds hypothesis (out-of-bounds indexing panics in the source).
  * `RangeInclusive<u8>` values are modelled as pairs `(lo, hi) : Nat × Nat`;
    all counts are bounded by 8 so `u8` overflow cannot occur, and the `u8`
    subtractions in `assignment_is_legal` are modelled with truncating `Nat`
    subtraction, with the no-underflow fact proved separately (claim C10),
    which makes the truncating model agree with the machine arithmetic.
  * Iterators are modelled as lists in the iteration order of the source.
  * The RNG- and wall-clock-driven adversarial selector of `collapse` is
    modelled nondeterministically: `Board.collapse` returns the list of all
    final boards the source can produce (the unchanged reset board for the
    zero-samples edge of the time budget, and one board per enumerated
    assignment).  Rayon parallelism only affects scheduling: both the parallel
    and the sequential arms concatenate the left result stream before the
    right one, so the `depth` counter of `collapse_inner` is dropped.
-/

/-- Cell states, mirroring `enum Cell` of the source. -/
inductive Cell where
  | Quantum (v : Option Bool)
  | Discovered (n : Option Nat)
  | Concrete (b : Bool)
deriving DecidableEq, Repr

/-- `Cell::bomb_count`: the inclusive contribution range of a cell, as a
`(lo, hi)` pair.  `Quantum(Some(b)) | Concrete(b)` both contribute
`u8::from(b)` on both ends. -/
def Cell.bomb_count : Cell → Nat × Nat
  | .Quantum none => (0, 1)
  | .Quantum (some b) => (cond b 1 0, cond b 1 0)
  | .Concrete b => (cond b 1 0, cond b 1 0)
  | .Discovered _ => (0, 0)

/-- Whether a cell is in the `Quantum` variant. -/
def Cell.isQuantum : Cell → Bool
  | .Quantum _ => true
  | _ => false

/-- Whether a cell is in the `Discovered` variant. -/
def Cell.isDiscovered : Cell → Bool
  | .Discovered _ => true
  | _ => false

/-- Whether a cell counts as a placed mine (`Concrete(true) | Quantum(Some(true))`),
the pattern used for the mine-budget subtraction in `collapse`. -/
def Cell.isMine : Cell → Bool
  | .Concrete true => true
  | .Quantum (some true) => true
  | _ => false

/-- `Board(Array2<Cell>)`: fixed dimensions plus a cell function. -/
@[ext]
structure Board where
  width : Nat
  height : Nat
  cells : Nat × Nat → Cell

/-- Write one cell (the `IndexMut` assignment `self[(x, y)] = c`). -/
def Board.set (bd : Board) (p : Nat × Nat) (c : Cell) : Board :=
  { bd with cells := fun q => if q = p then c else bd.cells q }

/-- In-bounds test of `Array2::get`. -/
def Board.inBounds (bd : Board) (p : Nat × Nat) : Bool :=
  decide (p.1 < bd.width) && decide (p.2 < bd.height)

/-- `Board::points`: `(0..width).cartesian_product(0..height)`. -/
def Board.points (bd : Board) : List (Nat × Nat) :=
  (List.range bd.width).flatMap fun x => (List.range bd.height).map fun y => (x, y)

/-- `usize::checked_add_signed`. -/
def checkedAddSigned (a : Nat) (d : Int) : Option Nat :=
  if 0 ≤ (a : Int) + d then some ((a : Int) + d).toNat else none

/-- The eight neighbor offsets, in the order produced by
`(-1..=1).cartesian_product(-1..=1).filter(|p| *p != (0, 0))`. -/
def neighborOffsets : List (Int × Int) :=
  [(-1, -1), (-1, 0), (-1, 1), (0, -1), (0, 1), (1, -1), (1, 0), (1, 1)]

/-- One step of the `filter_map` in `Board::neighbors`: apply an offset with
checked addition, then keep the position when `get` succeeds. -/
def neighborProbe (bd : Board) (x y : Nat) (d : Int × Int) : Option (Nat × Nat) :=
  match checkedAddSigned x d.1, checkedAddSigned y d.2 with
  | some nx, some ny => if bd.inBounds (nx, ny) then some (nx, ny) else none
  | _, _ => none

/-- `Board::neighbors`: the up-to-8 in-bounds grid neighbors of `(x, y)`,
in source iteration order. -/
def Board.neighbors (bd : Board) (x y : Nat) : List (Nat × Nat) :=
  neighborOffsets.filterMap (neighborProbe bd x y)

/-- `Board::count_neighboring_bombs`: elementwise fold of the neighbors'
contribution ranges starting from `0..=0`. -/
def Board.count_neighboring_bombs (bd : Board) (x y : Nat) : Nat × Nat :=
  (((bd.neighbors x y).map fun p => (bd.cells p).bomb_count).foldl
    (fun acc el => (acc.1 + el.1, acc.2 + el.2)) (0, 0))

/-- `Board::assignment_is_legal`: for every `Discovered(Some(n))` neighbor,
substitute this cell's current contribution range by the tentative value and
check the stored clue lies in the adjusted range.  The `u8` subtractions are
modelled by truncating `Nat` subtraction; they never underflow (claim C10). -/
def Board.assignment_is_legal (bd : Board) (x y : Nat) (value : Bool) : Bool :=
  let new_value := cond value 1 0
  let current_value := (bd.cells (x, y)).bomb_count
  (((bd.neighbors x y).filterMap fun p =>
      match bd.cells p with
      | .Discovered (some n) => some (p.1, p.2, n)
      | _ => none).all fun t =>
    let range := bd.count_neighboring_bombs t.1 t.2.1
    decide (range.1 - current_value.1 + new_value ≤ t.2.2) &&
      decide (t.2.2 ≤ range.2 - current_value.2 + new_value))

/-- `Board::clear_cell`: reveal a safe cell (returning `true`), signal a loss
on a mine (returning `false`, board untouched), no-op on `Discovered`. -/
def Board.clear_cell (bd : Board) (x y : Nat) : Board × Bool :=
  match bd.cells (x, y) with
  | .Quantum (some false) => (bd.set (x, y) (.Discovered none), true)
  | .Concrete false => (bd.set (x, y) (.Discovered none), true)
  | .Discovered _ => (bd, true)
  | _ => (bd, false)

/-- The `Discovered(_)` positions of the board in `points` order; the list the
`filter_map` of `fill_discovered` walks. -/
def Board.discoveredTargets (bd : Board) : List (Nat × Nat) :=
  bd.points.filter fun p => (bd.cells p).isDiscovered

/-- The collection phase of `fill_discovered`: pair every target with the
start of its neighboring-bomb range; `none` models the
`debug_assert_eq!(range.start(), range.end())` failing. -/
def Board.fill_pairs (bd : Board) : List (Nat × Nat) → Option (List ((Nat × Nat) × Nat))
  | [] => some []
  | p :: rest =>
    let r := bd.count_neighboring_bombs p.1 p.2
    if r.1 = r.2 then (bd.fill_pairs rest).map fun l => (p, r.1) :: l else none

/-- The write-back phase of `fill_discovered`: store `Discovered(Some(v))` at
every collected position; `none` models the `debug_assert_eq!(v, r)` failing
on a cell already holding `Discovered(Some(r))` with `r ≠ v`. -/
def Board.fill_write (bd : Board) : List ((Nat × Nat) × Nat) → Option Board
  | [] => some bd
  | pv :: rest =>
    match bd.cells pv.1 with
    | .Discovered (some r) =>
      if pv.2 = r then (bd.set pv.1 (.Discovered (some pv.2))).fill_write rest else none
    | _ => (bd.set pv.1 (.Discovered (some pv.2))).fill_write rest

/-- `Board::fill_discovered`, with the two `debug_assert_eq!` checks modelled
as `Option` failure. -/
def Board.fill_discovered (bd : Board) : Option Board :=
  (bd.fill_pairs bd.discoveredTargets).bind bd.fill_write

section BasicLemmas

theorem Board.set_width (bd : Board) (p : Nat × Nat) (c : Cell) :
    (bd.set p c).width = bd.width := rfl

theorem Board.set_height (bd : Board) (p : Nat × Nat) (c : Cell) :
    (bd.set p c).height = bd.height := rfl

theorem Board.set_cells (bd : Board) (p : Nat × Nat) (c : Cell) (q : Nat × Nat) :
    (bd.set p c).cells q = if q = p then c else bd.cells q := rfl

theorem Board.set_cells_self (bd : Board) (p : Nat × Nat) (c : Cell) :
    (bd.set p c).cells p = c := by simp [Board.set]

theorem Board.set_cells_of_ne (bd : Board) (p : Nat × Nat) (c : Cell) {q : Nat × Nat}
    (h : q ≠ p) : (bd.set p c).cells q = bd.cells q := by simp [Board.set, h]

/-- Writing back the value already stored leaves the board unchanged. -/
theorem Board.set_eq_self {bd : Board} {p : Nat × Nat} {c : Cell}
    (h : bd.cells p = c) : bd.set p c = bd := by
  ext q
  · rfl
  · rfl
  · by_cases hq : q = p
    · subst hq; simp [Board.set, h]
    · simp [Board.set, hq]

theorem Board.inBounds_set (bd : Board) (p : Nat × Nat) (c : Cell) (q : Nat × Nat) :
    (bd.set p c).inBounds q = bd.inBounds q := rfl

theorem Board.points_set (bd : Board) (p : Nat × Nat) (c : Cell) :
    (bd.set p c).points = bd.points := rfl

theorem Board.mem_points {bd : Board} {p : Nat × Nat} :
    p ∈ bd.points ↔ bd.inBounds p = true := by
  cases p with
  | mk x y =>
    simp [Board.points, Board.inBounds, List.mem_flatMap, List.mem_map, List.mem_range]

theorem Board.points_nodup (bd : Board) : bd.points.Nodup := by
  rw [Board.points, List.nodup_flatMap]
  constructor
  · intro x _
    exact (List.nodup_range _).map fun a b h => by simpa using h
  · have h := List.nodup_range bd.width
    refine List.Pairwise.imp ?_ h
    intro a b hab q hqa hqb
    simp only [Function.onFun, List.mem_map, List.mem_range] at hqa hqb
    obtain ⟨ya, _, rfl⟩ := hqa
    obtain ⟨yb, _, hq⟩ := hqb
    exact hab (by simpa using congrArg Prod.fst hq.symm)

end BasicLemmas

section NeighborLemmas

theorem checkedAddSigned_eq_some {a : Nat} {d : Int} {n : Nat} :
    checkedAddSigned a d = some n ↔ (n : Int) = (a : Int) + d := by
  by_cases hd : 0 ≤ (a : Int) + d
  · simp only [checkedAddSigned, if_pos hd, Option.some.injEq]
    omega
  · simp only [checkedAddSigned, if_neg hd]
    constructor
    · intro h; cases h
    · intro h; omega

theorem checkedAddSigned_eq_none {a : Nat} {d : Int} :
    checkedAddSigned a d = none ↔ (a : Int) + d < 0 := by
  by_cases hd : 0 ≤ (a : Int) + d
  · simp only [checkedAddSigned, if_pos hd]
    constructor
    · intro h; cases h
    · intro h; exact absurd hd (by omega)
  · simp only [checkedAddSigned, if_neg hd]
    constructor
    · intro _; omega
    · intro _; trivial

theorem neighborProbe_eq_some {bd : Board} {x y : Nat} {d : Int × Int} {q : Nat × Nat} :
    neighborProbe bd x y d = some q ↔
      bd.inBounds q = true ∧ (q.1 : Int) = x + d.1 ∧ (q.2 : Int) = y + d.2 := by
  rcases h1 : checkedAddSigned x d.1 with _ | nx
  · rw [checkedAddSigned_eq_none] at h1
    simp only [neighborProbe, checkedAddSigned_eq_none.mpr h1]
    constructor
    · intro h; cases h
    · rintro ⟨-, hq, -⟩; omega
  · rcases h2 : checkedAddSigned y d.2 with _ | ny
    · rw [checkedAddSigned_eq_none] at h2
      simp only [neighborProbe, h1, checkedAddSigned_eq_none.mpr h2]
      constructor
      · intro h; cases h
      · rintro ⟨-, -, hq⟩; omega
    · rw [checkedAddSigned_eq_some] at h1 h2
      simp only [neighborProbe, checkedAddSigned_eq_some.mpr h1,
        checkedAddSigned_eq_some.mpr h2]
      by_cases hb : bd.inBounds (nx, ny) = true
      · simp only [if_pos hb, Option.some.injEq]
        constructor
        · rintro rfl
          exact ⟨hb, h1, h2⟩
        · rintro ⟨-, hq1, hq2⟩
          cases q
          simp only [Prod.mk.injEq]
          simp only at hq1 hq2
          omega
      · simp only [if_neg hb]
        constructor
        · intro h; cases h
        · rintro ⟨hq, hq1, hq2⟩
          refine absurd ?_ hb
          have : q = (nx, ny) := by
            cases q
            simp only [Prod.mk.injEq]
            simp only at hq1 hq2
            omega
          rwa [this] at hq

theorem Board.mem_neighbors {bd : Board} {x y : Nat} {q : Nat × Nat} :
    q ∈ bd.neighbors x y ↔
      bd.inBounds q = true ∧ ((q.1 : Int) - x, (q.2 : Int) - y) ∈ neighborOffsets := by
  rw [Board.neighbors, List.mem_filterMap]
  constructor
  · rintro ⟨d, hd, hprobe⟩
    rw [neighborProbe_eq_some] at hprobe
    obtain ⟨hb, h1, h2⟩ := hprobe
    have : ((q.1 : Int) - x, (q.2 : Int) - y) = d := by
      cases d
      simp only [Prod.mk.injEq]
      simp only at h1 h2
      omega
    exact ⟨hb, this ▸ hd⟩
  · rintro ⟨hb, hd⟩
    refine ⟨_, hd, neighborProbe_eq_some.mpr ⟨hb, ?_, ?_⟩⟩ <;> simp

theorem Board.mem_neighbors_inBounds {bd : Board} {x y : Nat} {q : Nat × Nat}
    (h : q ∈ bd.neighbors x y) : bd.inBounds q = true :=
  (Board.mem_neighbors.mp h).1

theorem Board.neighbors_nodup (bd : Board) (x y : Nat) : (bd.neighbors x y).Nodup := by
  refine List.Nodup.filterMap ?_ (by decide)
  intro a a' b hb hb'
  rw [Option.mem_def, neighborProbe_eq_some] at hb hb'
  obtain ⟨-, h1, h2⟩ := hb
  obtain ⟨-, h1', h2'⟩ := hb'
  cases a
  cases a'
  simp only [Prod.mk.injEq]
  simp only at h1 h2 h1' h2'
  omega

theorem neg_mem_neighborOffsets {d : Int × Int} (h : d ∈ neighborOffsets) :
    (-d.1, -d.2) ∈ neighborOffsets := by
  fin_cases h <;> decide

theorem Board.mem_neighbors_symm {bd : Board} {x y : Nat} {q : Nat × Nat}
    (h : q ∈ bd.neighbors x y) (hin : bd.inBounds (x, y) = true) :
    (x, y) ∈ bd.neighbors q.1 q.2 := by
  rw [Board.mem_neighbors] at h ⊢
  obtain ⟨hb, hd⟩ := h
  refine ⟨hin, ?_⟩
  have hneg := neg_mem_neighborOffsets hd
  have heq : ((((x, y) : Nat × Nat).1 : Int) - q.1, (((x, y) : Nat × Nat).2 : Int) - q.2)
      = (-(((q.1 : Int) - x)), -(((q.2 : Int) - y))) := by
    simp only [Prod.mk.injEq]
    omega
  rw [heq]
  exact hneg

end NeighborLemmas

section CountLemmas

theorem foldl_pairAdd (l : List (Nat × Nat)) (a : Nat × Nat) :
    l.foldl (fun acc el => (acc.1 + el.1, acc.2 + el.2)) a
      = (a.1 + (l.map Prod.fst).sum, a.2 + (l.map Prod.snd).sum) := by
  induction l generalizing a with
  | nil => simp
  | cons e l ih =>
    rw [List.foldl_cons, ih]
    simp only [List.map_cons, List.sum_cons, Prod.mk.injEq]
    omega

theorem Board.count_eq_sums (bd : Board) (x y : Nat) :
    bd.count_neighboring_bombs x y
      = (((bd.neighbors x y).map fun p => (bd.cells p).bomb_count.1).sum,
         ((bd.neighbors x y).map fun p => (bd.cells p).bomb_count.2).sum) := by
  rw [Board.count_neighboring_bombs, foldl_pairAdd]
  simp [List.map_map, Function.comp_def]

theorem Board.neighbors_set (bd : Board) (p : Nat × Nat) (c : Cell) (x y : Nat) :
    (bd.set p c).neighbors x y = bd.neighbors x y := rfl

theorem Board.count_set_of_not_mem {bd : Board} {p : Nat × Nat} {c : Cell} {x y : Nat}
    (h : p ∉ bd.neighbors x y) :
    (bd.set p c).count_neighboring_bombs x y = bd.count_neighboring_bombs x y := by
  rw [Board.count_eq_sums, Board.count_eq_sums, Board.neighbors_set]
  have hmap : ∀ f : Cell → Nat,
      ((bd.neighbors x y).map fun q => f ((bd.set p c).cells q))
        = (bd.neighbors x y).map fun q => f (bd.cells q) := by
    intro f
    refine List.map_congr_left fun q hq => ?_
    rw [Board.set_cells_of_ne bd p c (fun hqp => h (hqp ▸ hq))]
  rw [hmap (fun c => c.bomb_count.1), hmap (fun c => c.bomb_count.2)]

/-- The contribution of one neighbor splits off the count: the remainder is
unchanged when that neighbor is overwritten. -/
theorem Board.count_split {bd : Board} {x y : Nat} {q : Nat × Nat}
    (hq : q ∈ bd.neighbors x y) :
    ∃ r1 r2 : Nat,
      bd.count_neighboring_bombs x y
        = ((bd.cells q).bomb_count.1 + r1, (bd.cells q).bomb_count.2 + r2) ∧
      ∀ c : Cell, (bd.set q c).count_neighboring_bombs x y
        = (c.bomb_count.1 + r1, c.bomb_count.2 + r2) := by
  obtain ⟨s, t, hst⟩ := List.append_of_mem hq
  have hnd := bd.neighbors_nodup x y
  rw [hst] at hnd
  obtain ⟨hnds, hndqt, hdisj⟩ := List.nodup_append.mp hnd
  have hqs : q ∉ s := fun hmem => hdisj hmem (List.mem_cons_self q t)
  have hqt : q ∉ t := (List.nodup_cons.mp hndqt).1
  refine ⟨(s.map fun p => (bd.cells p).bomb_count.1).sum
        + (t.map fun p => (bd.cells p).bomb_count.1).sum,
          (s.map fun p => (bd.cells p).bomb_count.2).sum
        + (t.map fun p => (bd.cells p).bomb_count.2).sum, ?_, ?_⟩
  · rw [bd.count_eq_sums x y, hst]
    simp only [List.map_append, List.map_cons, List.sum_append, List.sum_cons, Prod.mk.injEq]
    omega
  · intro c
    rw [Board.count_eq_sums, Board.neighbors_set, hst]
    have hs1 : (s.map fun p => ((bd.set q c).cells p).bomb_count.1)
        = s.map fun p => (bd.cells p).bomb_count.1 :=
      List.map_congr_left fun p hp => by
        rw [Board.set_cells_of_ne bd q c (fun h => hqs (h ▸ hp))]
    have hs2 : (s.map fun p => ((bd.set q c).cells p).bomb_count.2)
        = s.map fun p => (bd.cells p).bomb_count.2 :=
      List.map_congr_left fun p hp => by
        rw [Board.set_cells_of_ne bd q c (fun h => hqs (h ▸ hp))]
    have ht1 : (t.map fun p => ((bd.set q c).cells p).bomb_count.1)
        = t.map fun p => (bd.cells p).bomb_count.1 :=
      List.map_congr_left fun p hp => by
        rw [Board.set_cells_of_ne bd q c (fun h => hqt (h ▸ hp))]
    have ht2 : (t.map fun p => ((bd.set q c).cells p).bomb_count.2)
        = t.map fun p => (bd.cells p).bomb_count.2 :=
      List.map_congr_left fun p hp => by
        rw [Board.set_cells_of_ne bd q c (fun h => hqt (h ▸ hp))]
    simp only [List.map_append, List.map_cons, List.sum_append, List.sum_cons, Prod.mk.injEq,
      hs1, hs2, ht1, ht2, Board.set_cells_self]
    omega

/-- Every neighbor's contribution range is included boundwise in the count. -/
theorem Board.bomb_le_count {bd : Board} {x y : Nat} {q : Nat × Nat}
    (hq : q ∈ bd.neighbors x y) :
    (bd.cells q).bomb_count.1 ≤ (bd.count_neighboring_bombs x y).1 ∧
    (bd.cells q).bomb_count.2 ≤ (bd.count_neighboring_bombs x y).2 := by
  obtain ⟨r1, r2, h, -⟩ := Board.count_split hq
  rw [h]
  exact ⟨Nat.le_add_right _ _, Nat.le_add_right _ _⟩

/-- Unfolding of `assignment_is_legal` to a statement over revealed neighbor
clues (still in the truncating `Nat` arithmetic of the model). -/
theorem Board.assignment_is_legal_iff {bd : Board} {x y : Nat} {v : Bool} :
    bd.assignment_is_legal x y v = true ↔
      ∀ q ∈ bd.neighbors x y, ∀ k, bd.cells q = .Discovered (some k) →
        (bd.count_neighboring_bombs q.1 q.2).1 - (bd.cells (x, y)).bomb_count.1 + cond v 1 0 ≤ k ∧
        k ≤ (bd.count_neighboring_bombs q.1 q.2).2 - (bd.cells (x, y)).bomb_count.2 + cond v 1 0 := by
  rw [Board.assignment_is_legal]
  simp only [List.all_eq_true, List.mem_filterMap, Bool.and_eq_true, decide_eq_true_eq]
  constructor
  · intro h q hq k hck
    exact h (q.1, q.2, k) ⟨q, hq, by rw [hck]⟩
  · rintro h t ⟨q, hq, hmatch⟩
    rcases hc : bd.cells q with v' | n | b
    · rw [hc] at hmatch; cases hmatch
    · rcases n with _ | k
      · rw [hc] at hmatch; cases hmatch
      · rw [hc] at hmatch
        cases hmatch
        exact h q hq k hc
    · rw [hc] at hmatch; cases hmatch

theorem Cell.bomb_count_bounds (c : Cell) :
    c.bomb_count.1 ≤ c.bomb_count.2 ∧ c.bomb_count.2 ≤ 1 := by
  cases c with
  | Quantum v =>
    cases v with
    | none => simp [Cell.bomb_count]
    | some b => cases b <;> simp [Cell.bomb_count]
  | Concrete b => cases b <;> simp [Cell.bomb_count]
  | Discovered n => simp [Cell.bomb_count]

end CountLemmas

section Consistency

/-- Decidable satisfiability of one revealed clue: a `Discovered(Some(k))`
cell's stored value lies inside its current neighboring-bomb range. -/
def Board.clueOk (bd : Board) (p : Nat × Nat) : Bool :=
  match bd.cells p with
  | .Discovered (some k) =>
    decide ((bd.count_neighboring_bombs p.1 p.2).1 ≤ k) &&
      decide (k ≤ (bd.count_neighboring_bombs p.1 p.2).2)
  | _ => true

/-- Local consistency of a board: every revealed clue is satisfiable.  This is
the "legal board" precondition the spec assumes for the board handed into
`collapse` (design note 9: the board arriving at collapse is already locally
consistent). -/
def Board.Consistent (bd : Board) : Prop :=
  ∀ p ∈ bd.points, bd.clueOk p = true

theorem Board.clueOk_iff {bd : Board} {p : Nat × Nat} :
    bd.clueOk p = true ↔
      ∀ k, bd.cells p = .Discovered (some k) →
        (bd.count_neighboring_bombs p.1 p.2).1 ≤ k ∧
        k ≤ (bd.count_neighboring_bombs p.1 p.2).2 := by
  rcases hc : bd.cells p with v | n | b
  · simp [Board.clueOk, hc]
  · rcases n with _ | k
    · simp [Board.clueOk, hc]
    · simp only [Board.clueOk, hc, Bool.and_eq_true, decide_eq_true_eq]
      constructor
      · rintro h k' hk'
        cases hk'
        exact h
      · intro h
        exact h k rfl
  · simp [Board.clueOk, hc]

theorem Board.consistent_clue {bd : Board} (h : bd.Consistent) {p : Nat × Nat} {k : Nat}
    (hin : bd.inBounds p = true) (hc : bd.cells p = .Discovered (some k)) :
    (bd.count_neighboring_bombs p.1 p.2).1 ≤ k ∧
    k ≤ (bd.count_neighboring_bombs p.1 p.2).2 :=
  (Board.clueOk_iff.mp (h p (Board.mem_points.mpr hin))) k hc

/-- Overwriting an in-bounds cell by a `Quantum` value preserves consistency
whenever every revealed neighboring clue lies inside the adjusted range the
write produces. -/
theorem Board.Consistent.set_quantum {bd : Board} {p0 : Nat × Nat} {c : Cell}
    (hq : c.isQuantum = true)
    (hin : bd.inBounds p0 = true)
    (hcons : bd.Consistent)
    (hok : ∀ q ∈ bd.neighbors p0.1 p0.2, ∀ k, bd.cells q = .Discovered (some k) →
      (bd.count_neighboring_bombs q.1 q.2).1 - (bd.cells p0).bomb_count.1 + c.bomb_count.1 ≤ k ∧
      k ≤ (bd.count_neighboring_bombs q.1 q.2).2 - (bd.cells p0).bomb_count.2 + c.bomb_count.2) :
    (bd.set p0 c).Consistent := by
  intro q hqmem
  rw [Board.points_set] at hqmem
  rw [Board.clueOk_iff]
  intro k hck
  by_cases hqp : q = p0
  · subst hqp
    rw [Board.set_cells_self] at hck
    rw [hck] at hq
    cases hq
  · rw [Board.set_cells_of_ne bd p0 c hqp] at hck
    by_cases hmem : p0 ∈ bd.neighbors q.1 q.2
    · obtain ⟨r1, r2, hcount, hset⟩ := Board.count_split hmem
    -- the clue is adjacent to the written cell: its count moved exactly to
    -- the adjusted range
      have hqn : q ∈ bd.neighbors p0.1 p0.2 := by
        have hs := Board.mem_neighbors_symm hmem (Board.mem_points.mp hqmem)
        exact hs
      obtain ⟨h1, h2⟩ := hok q hqn k hck
      rw [hcount] at h1 h2
      rw [hset c]
      constructor <;> simp only [] <;> omega
    · rw [Board.count_set_of_not_mem hmem]
      exact Board.clueOk_iff.mp (hcons q hqmem) k hck

/-- Resetting an in-bounds cell to fully-undetermined `Quantum(None)` widens
every adjacent count range, so consistency is preserved. -/
theorem Board.Consistent.set_quantum_none {bd : Board} {p0 : Nat × Nat}
    (hin : bd.inBounds p0 = true) (hcons : bd.Consistent) :
    (bd.set p0 (.Quantum none)).Consistent := by
  refine Board.Consistent.set_quantum rfl hin hcons ?_
  intro q hqn k hck
  have hqin : bd.inBounds q = true := Board.mem_neighbors_inBounds hqn
  obtain ⟨h1, h2⟩ := Board.consistent_clue hcons hqin hck
  have hb := Cell.bomb_count_bounds (bd.cells p0)
  have hcn : (Cell.Quantum none).bomb_count = (0, 1) := rfl
  rw [hcn]
  constructor <;> omega

/-- Writing a legal tentative value into an in-bounds cell preserves
consistency: this is exactly what the `assignment_is_legal` gate checks. -/
theorem Board.Consistent.set_of_legal {bd : Board} {x y : Nat} {v : Bool}
    (hin : bd.inBounds (x, y) = true) (hcons : bd.Consistent)
    (hlegal : bd.assignment_is_legal x y v = true) :
    (bd.set (x, y) (.Quantum (some v))).Consistent := by
  refine Board.Consistent.set_quantum rfl hin hcons ?_
  have h := Board.assignment_is_legal_iff.mp hlegal
  intro q hqn k hck
  have := h q hqn k hck
  simpa [Cell.bomb_count] using this

end Consistency

section CollapseDefs

/-- Stable insertion of an element into a key-sorted list: it lands before the
first element whose key is not smaller, hence after earlier equal keys. -/
def insertByKey (key : Nat × Nat → Nat) (a : Nat × Nat) : List (Nat × Nat) → List (Nat × Nat)
  | [] => [a]
  | b :: l => if key a ≤ key b then a :: b :: l else b :: insertByKey key a l

/-- Stable sort by key.  `slice::sort_by_key` is a stable sort, and every
stable sort by the same key computes the same list, so the source's sort is
modelled by stable insertion sort. -/
def sortByKey (key : Nat × Nat → Nat) : List (Nat × Nat) → List (Nat × Nat)
  | [] => []
  | a :: l => insertByKey key a (sortByKey key l)

/-- Step 1 of `collapse`: `Quantum` cells adjacent to at least one
`Discovered` cell, in `points` order. -/
def Board.candidateSeeds (bd : Board) : List (Nat × Nat) :=
  bd.points.filter fun p =>
    (bd.cells p).isQuantum &&
      (bd.neighbors p.1 p.2).any fun q => (bd.cells q).isDiscovered

/-- The `true_check_board` / `false_check_board` construction: replace every
`Quantum(Some(v))` cell by `Quantum(None)` (`iter_mut` walks exactly the
in-bounds positions of the array). -/
def Board.neutralize (bd : Board) (v : Bool) : Board :=
  { bd with cells := fun q =>
      if bd.inBounds q = true ∧ bd.cells q = .Quantum (some v) then .Quantum none
      else bd.cells q }

/-- First `retain` of the pruning step: a `Quantum(Some(true))` candidate is
kept when flipping it to `false` is legal on `true_check_board`, the board
with every `Quantum(Some(false))` cell neutralized. -/
def Board.pruneTrueKeep (bd : Board) (p : Nat × Nat) : Bool :=
  match bd.cells p with
  | .Quantum (some true) => (bd.neutralize false).assignment_is_legal p.1 p.2 false
  | .Quantum _ => true
  | _ => false

/-- Second `retain` of the pruning step: a `Quantum(Some(false))` candidate is
kept when flipping it to `true` is legal on `false_check_board`, the board
with every `Quantum(Some(true))` cell neutralized. -/
def Board.pruneFalseKeep (bd : Board) (p : Nat × Nat) : Bool :=
  match bd.cells p with
  | .Quantum (some false) => (bd.neutralize true).assignment_is_legal p.1 p.2 true
  | .Quantum _ => true
  | _ => false

/-- The window `retain` (`allowed_range` defaults to the whole board). -/
def windowKeep (bd : Board) (w : Option ((Nat × Nat) × (Nat × Nat))) (p : Nat × Nat) : Bool :=
  let r := w.getD ((0, 0), (bd.width, bd.height))
  decide (r.1.1 ≤ p.1) && decide (p.1 < r.2.1) && decide (r.1.2 ≤ p.2) && decide (p.2 < r.2.2)

/-- The candidate list of one `collapse` call after the three `retain` passes. -/
def Board.collapseCandidates (bd : Board) (w : Option ((Nat × Nat) × (Nat × Nat))) :
    List (Nat × Nat) :=
  ((bd.candidateSeeds.filter bd.pruneTrueKeep).filter bd.pruneFalseKeep).filter
    (windowKeep bd w)

/-- Write the same cell value at a list of positions. -/
def Board.setAll (bd : Board) (ps : List (Nat × Nat)) (c : Cell) : Board :=
  ps.foldl (fun b p => b.set p c) bd

/-- The count `collapse` subtracts from the mine budget:
`Concrete(true) | Quantum(Some(true))` cells over the whole board. -/
def Board.mineCount (bd : Board) : Nat :=
  (bd.points.filter fun p => (bd.cells p).isMine).length

/-- `Board::collapse_inner`.  The `depth` counter only chooses between rayon
and sequential evaluation, both of which concatenate the left result stream
before the right one, so it is dropped; `Option<Iterator>` results are merged
into plain (possibly empty) lists.  Histories are kept newest-first like the
`Cons` lists of the source. -/
def Board.collapse_inner (bd : Board) (list : List Bool) (cells : List (Nat × Nat))
    (max_bombs : Nat) : List (List Bool) :=
  match cells with
  | [] => if list.isEmpty then [] else [list]
  | (x, y) :: rest =>
    (if decide (0 < max_bombs) && bd.assignment_is_legal x y true then
      (bd.set (x, y) (.Quantum (some true))).collapse_inner (true :: list) rest (max_bombs - 1)
    else []) ++
    (if bd.assignment_is_legal x y false then
      (bd.set (x, y) (.Quantum (some false))).collapse_inner (false :: list) rest max_bombs
    else [])

/-- Commit one assignment: `s.iter().zip(&quantum_cells)` writing
`Quantum(Some(b))` into each paired cell. -/
def Board.commitAssignment (bd : Board) (ps : List (Nat × Nat)) (s : List Bool) : Board :=
  (ps.zip s).foldl (fun b pv => b.set pv.1 (.Quantum (some pv.2))) bd

/-- The board after `collapse` resets every surviving candidate to
`Quantum(None)` (done once before the budget subtraction and once after the
sort; the second pass is a no-op). -/
def Board.resetBoard (bd : Board) (w : Option ((Nat × Nat) × (Nat × Nat))) : Board :=
  bd.setAll (bd.collapseCandidates w) (.Quantum none)

/-- `max_bombs.saturating_sub(already placed mines)`, taken after the reset. -/
def Board.collapseBudget (bd : Board) (max_bombs : Nat)
    (w : Option ((Nat × Nat) × (Nat × Nat))) : Nat :=
  max_bombs - (bd.resetBoard w).mineCount

/-- The candidate list sorted by `x + y` (`sort_by_key`). -/
def Board.collapseSorted (bd : Board) (w : Option ((Nat × Nat) × (Nat × Nat))) :
    List (Nat × Nat) :=
  sortByKey (fun p => p.1 + p.2) (bd.collapseCandidates w)

/-- The fully materialized enumeration: each terminal history reversed into
candidate order, exactly the `states` vector of the source. -/
def Board.collapseStates (bd : Board) (max_bombs : Nat)
    (w : Option ((Nat × Nat) × (Nat × Nat))) : List (List Bool) :=
  ((bd.resetBoard w).collapse_inner [] (bd.collapseSorted w)
    (bd.collapseBudget max_bombs w)).map List.reverse

/-- `Board::collapse`, modelled as the list of all final boards the source can
produce.  The first branch is the exhausted-budget path (all candidates forced
safe), the second the no-candidates path.  Otherwise the adversarial selector
samples under a wall-clock budget and commits the representative of the modal
clue pattern: which enumerated assignment wins depends on the RNG, and if the
time budget expires before the first sample nothing is committed, so the
outcome is the reset board or the reset board with one enumerated assignment
committed (intermediate sample commits are fully overwritten by the final
one, every state having the same length as the candidate list). -/
def Board.collapse (bd : Board) (max_bombs : Nat)
    (w : Option ((Nat × Nat) × (Nat × Nat))) : List Board :=
  let qc := bd.collapseCandidates w
  let bd1 := bd.resetBoard w
  if bd.collapseBudget max_bombs w = 0 then [bd1.setAll qc (.Quantum (some false))]
  else if qc.isEmpty then [bd1]
  else bd1 :: (bd.collapseStates max_bombs w).map fun s =>
    bd1.commitAssignment (bd.collapseSorted w) s

/-- The cell contents in `points` order; a decidable rendering of a board. -/
def Board.render (bd : Board) : List Cell :=
  bd.points.map bd.cells

end CollapseDefs

section SpecModelled

instance (bd : Board) : Decidable bd.Consistent := by
  unfold Board.Consistent
  exact List.decidableBAll _ _

/-- Modelled from the spec and claim C2 wording: neutralize to `Quantum(None)`
every cell other than `p0` currently holding `Quantum(Some(v))`. -/
def Board.neutralizeExcept (bd : Board) (v : Bool) (p0 : Nat × Nat) : Board :=
  { bd with cells := fun q =>
      if q ≠ p0 ∧ bd.inBounds q = true ∧ bd.cells q = .Quantum (some v) then .Quantum none
      else bd.cells q }

/-- Modelled from claim C2's wording of the pruning step: a candidate
tentatively `Some(true)` is kept exactly when flipping it to `false` is legal
on a board where all other currently-`Some(true)` cells are neutralized, and
symmetrically a `Some(false)` candidate is checked with the other
`Some(false)` cells neutralized. -/
def Board.specPruneKeep (bd : Board) (p : Nat × Nat) : Bool :=
  match bd.cells p with
  | .Quantum (some true) => (bd.neutralizeExcept true p).assignment_is_legal p.1 p.2 false
  | .Quantum (some false) => (bd.neutralizeExcept false p).assignment_is_legal p.1 p.2 true
  | .Quantum none => true
  | _ => false

/-- The candidate list claim C2 describes: seeds filtered by `specPruneKeep`,
then the window. -/
def Board.specPruneCandidates (bd : Board) (w : Option ((Nat × Nat) × (Nat × Nat))) :
    List (Nat × Nat) :=
  (bd.candidateSeeds.filter bd.specPruneKeep).filter (windowKeep bd w)

/-- The pruning predicate of the amended claim C2, in the claim's single-pass
phrasing: a `Some(true)` candidate's flip to `false` is checked on the board
with every `Some(false)` tentative cell neutralized, and a `Some(false)`
candidate's flip to `true` on the board with every `Some(true)` tentative
cell neutralized. -/
def Board.amendedPruneKeep (bd : Board) (p : Nat × Nat) : Bool :=
  match bd.cells p with
  | .Quantum (some true) => (bd.neutralize false).assignment_is_legal p.1 p.2 false
  | .Quantum (some false) => (bd.neutralize true).assignment_is_legal p.1 p.2 true
  | .Quantum none => true
  | _ => false

/-- The candidate list the amended claim C2 describes. -/
def Board.amendedPruneCandidates (bd : Board) (w : Option ((Nat × Nat) × (Nat × Nat))) :
    List (Nat × Nat) :=
  (bd.candidateSeeds.filter bd.amendedPruneKeep).filter (windowKeep bd w)

/-- Modelled from the spec's description of the legality predicate (claim C4),
with exact integer arithmetic in place of the code's `u8` operations: for
every revealed neighbor with clue `k`, subtract the cell's present range
bounds from the neighbor's range, add the tentative value on both ends, and
require `k` inside the adjusted range. -/
def Board.specAssignmentLegal (bd : Board) (x y : Nat) (v : Bool) : Prop :=
  ∀ q ∈ bd.neighbors x y, ∀ k, bd.cells q = .Discovered (some k) →
    ((bd.count_neighboring_bombs q.1 q.2).1 : Int)
        - ((bd.cells (x, y)).bomb_count.1 : Int) + cond v 1 0 ≤ (k : Int) ∧
    (k : Int) ≤ ((bd.count_neighboring_bombs q.1 q.2).2 : Int)
        - ((bd.cells (x, y)).bomb_count.2 : Int) + cond v 1 0

end SpecModelled

section SortAndSetAllLemmas

theorem mem_insertByKey {key : Nat × Nat → Nat} {a b : Nat × Nat} :
    ∀ {l : List (Nat × Nat)}, b ∈ insertByKey key a l ↔ b = a ∨ b ∈ l := by
  intro l
  induction l with
  | nil => simp [insertByKey]
  | cons c l ih =>
    rw [insertByKey]
    split
    · simp only [List.mem_cons]
    · simp only [List.mem_cons, ih]
      tauto

theorem mem_sortByKey {key : Nat × Nat → Nat} {b : Nat × Nat} :
    ∀ {l : List (Nat × Nat)}, b ∈ sortByKey key l ↔ b ∈ l := by
  intro l
  induction l with
  | nil => simp [sortByKey]
  | cons a l ih =>
    rw [sortByKey, mem_insertByKey]
    simp [ih]

theorem Board.setAll_cons (bd : Board) (p : Nat × Nat) (ps : List (Nat × Nat)) (c : Cell) :
    bd.setAll (p :: ps) c = (bd.set p c).setAll ps c := rfl

theorem Board.setAll_width : ∀ (ps : List (Nat × Nat)) (bd : Board) (c : Cell),
    (bd.setAll ps c).width = bd.width := by
  intro ps
  induction ps with
  | nil => intro bd c; rfl
  | cons p ps ih => intro bd c; rw [Board.setAll_cons, ih]; rfl

theorem Board.setAll_height : ∀ (ps : List (Nat × Nat)) (bd : Board) (c : Cell),
    (bd.setAll ps c).height = bd.height := by
  intro ps
  induction ps with
  | nil => intro bd c; rfl
  | cons p ps ih => intro bd c; rw [Board.setAll_cons, ih]; rfl

theorem Board.setAll_inBounds (ps : List (Nat × Nat)) (bd : Board) (c : Cell) (q : Nat × Nat) :
    (bd.setAll ps c).inBounds q = bd.inBounds q := by
  rw [Board.inBounds, Board.inBounds, Board.setAll_width, Board.setAll_height]

theorem Board.setAll_cells_of_not_mem : ∀ (ps : List (Nat × Nat)) (bd : Board) (c : Cell)
    {q : Nat × Nat}, q ∉ ps → (bd.setAll ps c).cells q = bd.cells q := by
  intro ps
  induction ps with
  | nil => intro bd c q _; rfl
  | cons p ps ih =>
    intro bd c q hq
    rw [Board.setAll_cons, ih _ _ (fun h => hq (List.mem_cons_of_mem _ h))]
    exact Board.set_cells_of_ne bd p c
      (fun h => hq (by rw [h]; exact List.mem_cons_self p ps))

theorem Board.commitAssignment_cons (bd : Board) (p : Nat × Nat) (ps : List (Nat × Nat))
    (v : Bool) (s : List Bool) :
    bd.commitAssignment (p :: ps) (v :: s)
      = (bd.set p (.Quantum (some v))).commitAssignment ps s := rfl

theorem Board.commit_cells_of_not_mem : ∀ (ps : List (Nat × Nat)) (s : List Bool) (bd : Board)
    {q : Nat × Nat}, q ∉ ps → (bd.commitAssignment ps s).cells q = bd.cells q := by
  intro ps
  induction ps with
  | nil => intro s bd q _; rfl
  | cons p ps ih =>
    intro s bd q hq
    cases s with
    | nil => rfl
    | cons v s =>
      rw [Board.commitAssignment_cons, ih _ _ (fun h => hq (List.mem_cons_of_mem _ h))]
      exact Board.set_cells_of_ne bd p _
        (fun h => hq (by rw [h]; exact List.mem_cons_self p ps))

theorem Board.collapseCandidates_inBounds {bd : Board} {w : Option ((Nat × Nat) × (Nat × Nat))}
    {p : Nat × Nat} (hp : p ∈ bd.collapseCandidates w) : bd.inBounds p = true := by
  rw [Board.collapseCandidates] at hp
  have hseed : p ∈ bd.candidateSeeds :=
    List.mem_of_mem_filter (List.mem_of_mem_filter (List.mem_of_mem_filter hp))
  rw [Board.candidateSeeds, List.mem_filter] at hseed
  exact Board.mem_points.mp hseed.1

theorem Board.collapseCandidates_isQuantum {bd : Board} {w : Option ((Nat × Nat) × (Nat × Nat))}
    {p : Nat × Nat} (hp : p ∈ bd.collapseCandidates w) : (bd.cells p).isQuantum = true := by
  rw [Board.collapseCandidates] at hp
  have hseed : p ∈ bd.candidateSeeds :=
    List.mem_of_mem_filter (List.mem_of_mem_filter (List.mem_of_mem_filter hp))
  rw [Board.candidateSeeds, List.mem_filter] at hseed
  have h2 := hseed.2
  rw [Bool.and_eq_true] at h2
  exact h2.1

end SortAndSetAllLemmas

section ExampleBoards

/-- 1x3 board: a clue-1 cell at `(0, 1)` whose only undetermined neighbors are
the two `Quantum(None)` cells `(0, 0)` and `(0, 2)` (the C5 scenario). -/
def exScenario : Board := ⟨1, 3, fun p => if p = (0, 1) then .Discovered (some 1) else .Quantum none⟩

/-- 2x2 board separating the code's pruning from claim C2's description:
a clue-2 at `(0, 0)`, tentative mines at `(0, 1)` and `(1, 0)`, a tentative
safe cell at `(1, 1)`. -/
def exPrune : Board :=
  ⟨2, 2, fun p =>
    if p = (0, 0) then .Discovered (some 2)
    else if p = (0, 1) then .Quantum (some true)
    else if p = (1, 0) then .Quantum (some true)
    else .Quantum (some false)⟩

/-- 1x1 board holding a single undetermined cell. -/
def exUnit : Board := ⟨1, 1, fun _ => .Quantum none⟩

/-- 1x1 board holding a single committed-safe cell. -/
def exClear : Board := ⟨1, 1, fun _ => .Quantum (some false)⟩

/-- 1x2 board with one revealed cell next to one concrete mine. -/
def exFill : Board := ⟨1, 2, fun p => if p = (0, 0) then .Discovered none else .Concrete true⟩

end ExampleBoards

section ClaimC10

/-- C10: in `assignment_is_legal`, the `u8` subtractions
`range.start() - current_value.start()` and `range.end() - current_value.end()`
never underflow: for an in-bounds `(x, y)` and any `Discovered(Some(k))`
neighbor, the neighbor's neighboring-bomb range bounds each dominate the
corresponding bound of the cell's own contribution range, because the cell is
itself among the neighbor's neighbors. -/
theorem legal_subtraction_no_underflow (bd : Board) (x y : Nat)
    (hin : bd.inBounds (x, y) = true) :
    ∀ q ∈ bd.neighbors x y, ∀ k, bd.cells q = .Discovered (some k) →
      (bd.cells (x, y)).bomb_count.1 ≤ (bd.count_neighboring_bombs q.1 q.2).1 ∧
      (bd.cells (x, y)).bomb_count.2 ≤ (bd.count_neighboring_bombs q.1 q.2).2 := by
  intro q hq k _
  exact Board.bomb_le_count (Board.mem_neighbors_symm hq hin)

/-- Witness for C10 on a concrete board: the clue cell `(0, 1)` of
`exScenario` is a neighbor of the in-bounds cell `(0, 0)`. -/
theorem legal_subtraction_no_underflow_witness :
    exScenario.inBounds (0, 0) = true ∧
    (exScenario.cells (0, 0)).bomb_count.1
        ≤ (exScenario.count_neighboring_bombs 0 1).1 ∧
    (exScenario.cells (0, 0)).bomb_count.2
        ≤ (exScenario.count_neighboring_bombs 0 1).2 := by
  refine ⟨by decide, ?_⟩
  have h := legal_subtraction_no_underflow exScenario 0 0 (by decide)
    (0, 1) (by decide) 1 (by decide)
  exact h

end ClaimC10

section ClaimC4

/-- C4: `assignment_is_legal(x, y, v)` returns true if and only if every
revealed neighbor's clue `k` lies in the range obtained by subtracting the
cell's current contribution bounds from the neighbor's neighboring-bomb range
and adding `v` as 0/1 on both ends (stated with exact integer arithmetic; the
equivalence with the code's truncating arithmetic rests on the no-underflow
fact of C10). -/
theorem assignment_is_legal_spec (bd : Board) (x y : Nat) (v : Bool)
    (hin : bd.inBounds (x, y) = true) :
    bd.assignment_is_legal x y v = true ↔ bd.specAssignmentLegal x y v := by
  rw [Board.assignment_is_legal_iff, Board.specAssignmentLegal]
  constructor
  · intro h q hq k hck
    obtain ⟨h1, h2⟩ := h q hq k hck
    obtain ⟨hle1, hle2⟩ := Board.bomb_le_count (Board.mem_neighbors_symm hq hin)
    cases v <;> simp only [cond_true, cond_false] at h1 h2 ⊢ <;> omega
  · intro h q hq k hck
    obtain ⟨h1, h2⟩ := h q hq k hck
    obtain ⟨hle1, hle2⟩ := Board.bomb_le_count (Board.mem_neighbors_symm hq hin)
    cases v <;> simp only [cond_true, cond_false] at h1 h2 ⊢ <;> omega

/-- Witness for C4: on `exScenario`, assigning `true` at `(0, 0)` is legal and
the spec-side range condition holds there. -/
theorem assignment_is_legal_spec_witness :
    exScenario.inBounds (0, 0) = true ∧
    exScenario.assignment_is_legal 0 0 true = true ∧
    exScenario.specAssignmentLegal 0 0 true :=
  ⟨by decide, by decide,
    (assignment_is_legal_spec exScenario 0 0 true (by decide)).mp (by decide)⟩

end ClaimC4

section ClaimC7

/-- C7: `clear_cell` reveals a committed-or-concrete safe cell as
`Discovered(None)` returning true, returns false leaving the whole board
unchanged on a committed-or-concrete mine, and is a no-op success on an
already-`Discovered` cell. -/
theorem clear_cell_cases (bd : Board) (x y : Nat) (hin : bd.inBounds (x, y) = true) :
    ((bd.cells (x, y) = .Quantum (some false) ∨ bd.cells (x, y) = .Concrete false) →
      (bd.clear_cell x y).1 = bd.set (x, y) (.Discovered none) ∧
      (bd.clear_cell x y).2 = true) ∧
    ((bd.cells (x, y) = .Quantum (some true) ∨ bd.cells (x, y) = .Concrete true) →
      (bd.clear_cell x y).1 = bd ∧ (bd.clear_cell x y).2 = false) ∧
    ((∃ n, bd.cells (x, y) = .Discovered n) →
      (bd.clear_cell x y).1 = bd ∧ (bd.clear_cell x y).2 = true) := by
  refine ⟨?_, ?_, ?_⟩
  · rintro (hc | hc) <;> simp [Board.clear_cell, hc]
  · rintro (hc | hc) <;> simp [Board.clear_cell, hc]
  · rintro ⟨n, hc⟩
    simp [Board.clear_cell, hc]

/-- Witness for C7: clearing the committed-safe cell of `exClear` reveals it
and reports success. -/
theorem clear_cell_cases_witness :
    (exClear.clear_cell 0 0).1 = exClear.set (0, 0) (.Discovered none) ∧
    (exClear.clear_cell 0 0).2 = true :=
  (clear_cell_cases exClear 0 0 (by decide)).1 (Or.inl rfl)

end ClaimC7

section ClaimC6

theorem collapse_inner_length :
    ∀ (cells : List (Nat × Nat)) (bd : Board) (l : List Bool) (mb : Nat),
      ∀ s ∈ bd.collapse_inner l cells mb, s.length = cells.length + l.length := by
  intro cells
  induction cells with
  | nil =>
    intro bd l mb s hs
    rw [Board.collapse_inner] at hs
    by_cases hl : l.isEmpty
    · simp [hl] at hs
    · simp only [hl, Bool.false_eq_true, if_false, List.mem_singleton] at hs
      simp [hs]
  | cons p rest ih =>
    intro bd l mb s hs
    obtain ⟨x, y⟩ := p
    rw [Board.collapse_inner] at hs
    rcases List.mem_append.mp hs with hmem | hmem
    · by_cases hleg : (decide (0 < mb) && bd.assignment_is_legal x y true) = true
      · rw [if_pos hleg] at hmem
        have := ih _ _ _ s hmem
        simp only [List.length_cons] at this ⊢
        omega
      · rw [if_neg hleg] at hmem
        cases hmem
    · by_cases hleg : bd.assignment_is_legal x y false = true
      · rw [if_pos hleg] at hmem
        have := ih _ _ _ s hmem
        simp only [List.length_cons] at this ⊢
        omega
      · rw [if_neg hleg] at hmem
        cases hmem

/-- C6: at a terminal of `collapse_inner` (candidate list exhausted) the
path's history is yielded exactly when at least one assignment was made along
the path; in particular the zero-candidate enumeration yields nothing, and no
yielded state is ever empty. -/
theorem collapse_inner_terminal (bd : Board) (l : List Bool) (cells : List (Nat × Nat))
    (mb : Nat) :
    (l ≠ [] → bd.collapse_inner l [] mb = [l]) ∧
    bd.collapse_inner [] [] mb = [] ∧
    (∀ s ∈ bd.collapse_inner [] cells mb, s ≠ []) := by
  refine ⟨?_, ?_, ?_⟩
  · intro hl
    have hne : l.isEmpty = false := by
      cases l with
      | nil => exact absurd rfl hl
      | cons a l => rfl
    rw [Board.collapse_inner, hne]
    simp
  · rw [Board.collapse_inner]
    simp
  · intro s hs hnil
    have hlen := collapse_inner_length cells bd [] mb s hs
    rw [hnil] at hlen
    simp only [List.length_nil, List.length_cons] at hlen
    have hcells : cells = [] := List.eq_nil_of_length_eq_zero (by omega)
    rw [hcells, Board.collapse_inner] at hs
    simp at hs

/-- Witness for C6: a nonempty history is yielded at a terminal, and the state
`[false]` enumerated over one candidate on `exUnit` is nonempty. -/
theorem collapse_inner_terminal_witness :
    exUnit.collapse_inner [true] [] 0 = [[true]] ∧ ([false] : List Bool) ≠ [] :=
  ⟨(collapse_inner_terminal exUnit [true] [] 0).1 (by decide),
   (collapse_inner_terminal exUnit [] [(0, 0)] 0).2.2 [false] (by decide)⟩

end ClaimC6

section ClaimC2

/-- Counterexample to C2 as stated: on `exPrune`, the candidate list the code
computes differs from the list obtained by the claim's described procedure
(checking a `Some(true)` candidate's flip on a board neutralizing the other
`Some(true)` cells).  The code keeps all three tentative cells; the claim's
procedure drops them all. -/
theorem collapse_pruning_counterexample :
    exPrune.collapseCandidates none ≠ exPrune.specPruneCandidates none := by decide

theorem prune_keep_eq (bd : Board) (p : Nat × Nat) :
    (bd.pruneTrueKeep p && bd.pruneFalseKeep p) = bd.amendedPruneKeep p := by
  rcases hc : bd.cells p with v | n | b
  · rcases v with _ | b
    · simp [Board.pruneTrueKeep, Board.pruneFalseKeep, Board.amendedPruneKeep, hc]
    · cases b <;>
        simp [Board.pruneTrueKeep, Board.pruneFalseKeep, Board.amendedPruneKeep, hc]
  · simp [Board.pruneTrueKeep, Board.pruneFalseKeep, Board.amendedPruneKeep, hc]
  · simp [Board.pruneTrueKeep, Board.pruneFalseKeep, Board.amendedPruneKeep, hc]

/-- C2 (amended): in the pruning step, a candidate currently
`Quantum(Some(true))` is dropped (stays forced true) exactly when flipping it
to `false` is illegal on the board with every `Quantum(Some(false))` tentative
cell neutralized to `Quantum(None)`, and a `Quantum(Some(false))` candidate is
checked symmetrically on the board with every `Quantum(Some(true))` cell
neutralized. -/
theorem collapse_pruning_amended (bd : Board) (w : Option ((Nat × Nat) × (Nat × Nat))) :
    bd.collapseCandidates w = bd.amendedPruneCandidates w := by
  rw [Board.collapseCandidates, Board.amendedPruneCandidates]
  have h : (bd.candidateSeeds.filter bd.pruneTrueKeep).filter bd.pruneFalseKeep
      = bd.candidateSeeds.filter bd.amendedPruneKeep := by
    rw [List.filter_filter]
    refine List.filter_congr fun p _ => ?_
    rw [Bool.and_comm]
    exact prune_keep_eq bd p
  rw [h]

end ClaimC2

section ClaimC5

/-- C5: on the clue-1 board `exScenario` with `max_bombs = 1`, enumeration
yields exactly the two terminal assignments `[true, false]` and
`[false, true]` (in candidate order `(0,0), (0,2)`); committing either one
keeps the board consistent and pins the clue's neighboring-bomb range to
exactly `1`; and every possible outcome of `collapse` is the reset board
(the zero-samples edge of the time budget) or one of those two commits. -/
theorem two_neighbor_scenario :
    exScenario.collapseStates 1 none = [[true, false], [false, true]] ∧
    (∀ s ∈ exScenario.collapseStates 1 none,
      ((exScenario.resetBoard none).commitAssignment
        (exScenario.collapseSorted none) s).Consistent ∧
      ((exScenario.resetBoard none).commitAssignment
        (exScenario.collapseSorted none) s).count_neighboring_bombs 0 1 = (1, 1)) ∧
    (exScenario.collapse 1 none).map Board.render =
      [[.Quantum none, .Discovered (some 1), .Quantum none],
       [.Quantum (some true), .Discovered (some 1), .Quantum (some false)],
       [.Quantum (some false), .Discovered (some 1), .Quantum (some true)]] := by
  refine ⟨by decide, by decide, by decide⟩

end ClaimC5

section ClaimC1

theorem consistent_setAll_none :
    ∀ (ps : List (Nat × Nat)) (bd : Board),
      (∀ p ∈ ps, bd.inBounds p = true) → bd.Consistent →
      (bd.setAll ps (.Quantum none)).Consistent := by
  intro ps
  induction ps with
  | nil => intro bd _ h; exact h
  | cons p rest ih =>
    intro bd hin hcons
    rw [Board.setAll_cons]
    refine ih _ (fun q hq => ?_) ?_
    · rw [Board.inBounds_set]
      exact hin q (List.mem_cons_of_mem _ hq)
    · exact Board.Consistent.set_quantum_none (hin p (List.mem_cons_self p rest)) hcons

/-- Along every enumerated branch, the history consists of legality-checked
assignments, so committing it onto the branch's starting board preserves
consistency. -/
theorem collapse_inner_consistent :
    ∀ (cells : List (Nat × Nat)) (bd : Board) (l : List Bool) (mb : Nat),
      (∀ p ∈ cells, bd.inBounds p = true) → bd.Consistent →
      ∀ s ∈ bd.collapse_inner l cells mb,
        ∃ t : List Bool, s = t ++ l ∧ (bd.commitAssignment cells t.reverse).Consistent := by
  intro cells
  induction cells with
  | nil =>
    intro bd l mb _ hcons s hs
    rw [Board.collapse_inner] at hs
    by_cases hl : l.isEmpty
    · simp [hl] at hs
    · simp only [hl, Bool.false_eq_true, if_false, List.mem_singleton] at hs
      exact ⟨[], by simp [hs], hcons⟩
  | cons p rest ih =>
    intro bd l mb hin hcons s hs
    obtain ⟨x, y⟩ := p
    have hinxy : bd.inBounds (x, y) = true := hin (x, y) (List.mem_cons_self _ _)
    have hinrest : ∀ c, ∀ q ∈ rest, (bd.set (x, y) c).inBounds q = true := fun c q hq => by
      rw [Board.inBounds_set]
      exact hin q (List.mem_cons_of_mem _ hq)
    rw [Board.collapse_inner] at hs
    rcases List.mem_append.mp hs with hmem | hmem
    · by_cases hleg : (decide (0 < mb) && bd.assignment_is_legal x y true) = true
      · rw [if_pos hleg] at hmem
        rw [Bool.and_eq_true] at hleg
        have hcons' : (bd.set (x, y) (.Quantum (some true))).Consistent :=
          Board.Consistent.set_of_legal hinxy hcons hleg.2
        obtain ⟨t, hst, hc⟩ := ih _ _ _ (hinrest _) hcons' s hmem
        refine ⟨t ++ [true], by simp [hst], ?_⟩
        rw [List.reverse_append]
        simpa [Board.commitAssignment_cons] using hc
      · rw [if_neg hleg] at hmem
        cases hmem
    · by_cases hleg : bd.assignment_is_legal x y false = true
      · rw [if_pos hleg] at hmem
        have hcons' : (bd.set (x, y) (.Quantum (some false))).Consistent :=
          Board.Consistent.set_of_legal hinxy hcons hleg
        obtain ⟨t, hst, hc⟩ := ih _ _ _ (hinrest _) hcons' s hmem
        refine ⟨t ++ [false], by simp [hst], ?_⟩
        rw [List.reverse_append]
        simpa [Board.commitAssignment_cons] using hc
      · rw [if_neg hleg] at hmem
        cases hmem

/-- C1: clue preservation.  For a board whose revealed clues are all
satisfiable (the precondition the spec assumes of every board handed into
`collapse`), committing any assignment enumerated by `collapse` into the
candidate cells leaves every revealed `Discovered(Some(k))` clue satisfiable:
`k` stays inside the cell's neighboring-bomb range, which equals the exact
neighbor-mine count whenever all the clue's neighbors are determined. -/
theorem collapse_clue_preservation (bd : Board) (max_bombs : Nat)
    (w : Option ((Nat × Nat) × (Nat × Nat))) (hcons : bd.Consistent) :
    ∀ s ∈ bd.collapseStates max_bombs w,
      ((bd.resetBoard w).commitAssignment (bd.collapseSorted w) s).Consistent := by
  intro s hs
  rw [Board.collapseStates, List.mem_map] at hs
  obtain ⟨raw, hraw, rfl⟩ := hs
  have hreset : (bd.resetBoard w).Consistent :=
    consistent_setAll_none _ _ (fun p hp => Board.collapseCandidates_inBounds hp) hcons
  have hinsorted : ∀ p ∈ bd.collapseSorted w, (bd.resetBoard w).inBounds p = true := by
    intro p hp
    rw [Board.resetBoard, Board.setAll_inBounds]
    exact Board.collapseCandidates_inBounds (mem_sortByKey.mp hp)
  obtain ⟨t, hst, hc⟩ := collapse_inner_consistent _ _ _ _ hinsorted hreset raw hraw
  rw [List.append_nil] at hst
  rw [hst]
  exact hc

/-- Witness for C1: `exScenario` is consistent, `[true, false]` is an
enumerated state, and its commit is consistent. -/
theorem collapse_clue_preservation_witness :
    exScenario.Consistent ∧
    ((exScenario.resetBoard none).commitAssignment
      (exScenario.collapseSorted none) [true, false]).Consistent :=
  ⟨by decide,
   collapse_clue_preservation exScenario 1 none (by decide) [true, false] (by decide)⟩

end ClaimC1

section ClaimC3

theorem length_filter_le_of_update {l : List (Nat × Nat)} (hnd : l.Nodup)
    {f g : Nat × Nat → Bool} {a : Nat × Nat}
    (hagree : ∀ x ∈ l, x ≠ a → f x = g x) :
    (l.filter f).length ≤ (l.filter g).length + cond (f a) 1 0 := by
  induction l with
  | nil => simp
  | cons x xs ih =>
    obtain ⟨hx, hnd'⟩ := List.nodup_cons.mp hnd
    by_cases hxa : x = a
    · subst hxa
      have hfg : xs.filter f = xs.filter g :=
        List.filter_congr fun y hy =>
          hagree y (List.mem_cons_of_mem _ hy) (fun h => hx (h ▸ hy))
      rw [List.filter_cons, List.filter_cons, hfg]
      cases hfx : f x <;> cases hgx : g x <;> simp <;> omega
    · have hfg : f x = g x := hagree x (List.mem_cons_self _ _) hxa
      have hrec := ih hnd' fun y hy hya => hagree y (List.mem_cons_of_mem _ hy) hya
      rw [List.filter_cons, List.filter_cons, hfg]
      cases hgx : g x <;> simp <;> omega

theorem Board.mineCount_set_le (bd : Board) (p : Nat × Nat) (c : Cell) :
    (bd.set p c).mineCount ≤ bd.mineCount + cond c.isMine 1 0 := by
  rw [Board.mineCount, Board.mineCount, Board.points_set]
  have hagree : ∀ x ∈ bd.points, x ≠ p →
      ((bd.set p c).cells x).isMine = (bd.cells x).isMine := by
    intro x _ hxp
    rw [Board.set_cells_of_ne bd p c hxp]
  have key := length_filter_le_of_update (l := bd.points) bd.points_nodup
    (f := fun q => ((bd.set p c).cells q).isMine) (g := fun q => (bd.cells q).isMine)
    (a := p) hagree
  simp only [Board.set_cells_self] at key
  exact key

theorem Board.mineCount_set_le_of_safe (bd : Board) (p : Nat × Nat) {c : Cell}
    (hc : c.isMine = false) : (bd.set p c).mineCount ≤ bd.mineCount := by
  have h := bd.mineCount_set_le p c
  rw [hc] at h
  simpa using h

theorem Board.mineCount_setAll_le :
    ∀ (ps : List (Nat × Nat)) (bd : Board) {c : Cell}, c.isMine = false →
      (bd.setAll ps c).mineCount ≤ bd.mineCount := by
  intro ps
  induction ps with
  | nil => intro bd c _; exact Nat.le_refl _
  | cons p rest ih =>
    intro bd c hc
    rw [Board.setAll_cons]
    exact le_trans (ih _ hc) (bd.mineCount_set_le_of_safe p hc)

theorem Board.mineCount_commit_le :
    ∀ (ps : List (Nat × Nat)) (s : List Bool) (bd : Board),
      (bd.commitAssignment ps s).mineCount ≤ bd.mineCount + s.count true := by
  intro ps
  induction ps with
  | nil => intro s bd; simp [Board.commitAssignment]
  | cons p rest ih =>
    intro s bd
    cases s with
    | nil => simp [Board.commitAssignment]
    | cons v s =>
      rw [Board.commitAssignment_cons]
      have h1 := ih s (bd.set p (.Quantum (some v)))
      have h2 := bd.mineCount_set_le p (.Quantum (some v))
      have hmine : (Cell.Quantum (some v)).isMine = v := by cases v <;> rfl
      rw [hmine] at h2
      have hcount : (v :: s).count true = s.count true + cond v 1 0 := by
        cases v <;> simp [List.count_cons]
      omega

theorem collapse_inner_count_true :
    ∀ (cells : List (Nat × Nat)) (bd : Board) (l : List Bool) (mb : Nat),
      ∀ s ∈ bd.collapse_inner l cells mb, s.count true ≤ mb + l.count true := by
  intro cells
  induction cells with
  | nil =>
    intro bd l mb s hs
    rw [Board.collapse_inner] at hs
    by_cases hl : l.isEmpty
    · simp [hl] at hs
    · simp only [hl, Bool.false_eq_true, if_false, List.mem_singleton] at hs
      subst hs
      exact Nat.le_add_left _ _
  | cons p rest ih =>
    intro bd l mb s hs
    obtain ⟨x, y⟩ := p
    rw [Board.collapse_inner] at hs
    rcases List.mem_append.mp hs with hmem | hmem
    · by_cases hleg : (decide (0 < mb) && bd.assignment_is_legal x y true) = true
      · rw [if_pos hleg] at hmem
        rw [Bool.and_eq_true, decide_eq_true_eq] at hleg
        have h := ih _ _ _ s hmem
        have hc : (true :: l).count true = l.count true + 1 := by simp [List.count_cons]
        omega
      · rw [if_neg hleg] at hmem
        cases hmem
    · by_cases hleg : bd.assignment_is_legal x y false = true
      · rw [if_pos hleg] at hmem
        have h := ih _ _ _ s hmem
        have hc : (false :: l).count true = l.count true := by simp [List.count_cons]
        omega
      · rw [if_neg hleg] at hmem
        cases hmem

/-- C3: mine-budget conservation.  If the board's mine-valued cells
(`Concrete(true)` plus `Quantum(Some(true))`) number at most `max_bombs`, then
after `collapse(max_bombs, window)` — whichever outcome the selector produces
— they still do: the budget is reduced by the already-fixed mines and only the
`true` branch of the search decrements it. -/
theorem collapse_mine_budget (bd : Board) (max_bombs : Nat)
    (w : Option ((Nat × Nat) × (Nat × Nat))) (h : bd.mineCount ≤ max_bombs) :
    ∀ out ∈ bd.collapse max_bombs w, out.mineCount ≤ max_bombs := by
  intro out hout
  have hreset : (bd.resetBoard w).mineCount ≤ bd.mineCount :=
    Board.mineCount_setAll_le _ _ rfl
  rw [Board.collapse] at hout
  by_cases hb : bd.collapseBudget max_bombs w = 0
  · rw [if_pos hb, List.mem_singleton] at hout
    subst hout
    exact le_trans (Board.mineCount_setAll_le _ _ rfl) (le_trans hreset h)
  · rw [if_neg hb] at hout
    by_cases hqc : (bd.collapseCandidates w).isEmpty
    · rw [if_pos hqc, List.mem_singleton] at hout
      subst hout
      exact le_trans hreset h
    · rw [if_neg hqc, List.mem_cons] at hout
      rcases hout with rfl | hout
      · exact le_trans hreset h
      · rw [List.mem_map] at hout
        obtain ⟨s, hs, rfl⟩ := hout
        rw [Board.collapseStates, List.mem_map] at hs
        obtain ⟨raw, hraw, rfl⟩ := hs
        have htr := collapse_inner_count_true _ _ _ _ raw hraw
        have hcommit := Board.mineCount_commit_le (bd.collapseSorted w) raw.reverse
          (bd.resetBoard w)
        have hrev : raw.reverse.count true = raw.count true := List.count_reverse _ _
        have hbudget : bd.collapseBudget max_bombs w
            = max_bombs - (bd.resetBoard w).mineCount := rfl
        simp only [List.count_nil] at htr
        omega

/-- Witness for C3: `exScenario` holds no mines, and the head outcome of its
collapse (the reset board) stays within the budget of one mine. -/
theorem collapse_mine_budget_witness :
    exScenario.mineCount ≤ 1 ∧ (exScenario.resetBoard none).mineCount ≤ 1 :=
  ⟨by decide,
   collapse_mine_budget exScenario 1 none (by decide) (exScenario.resetBoard none)
     (List.mem_cons_self _ _)⟩

end ClaimC3

section ClaimC9

/-- C9: collapse only modifies cells that are Quantum at call time and belong
to the candidate list: every other cell — `Discovered`, `Concrete`, or a
`Quantum` cell that is not adjacent to a revealed cell, lies outside the
window, or was dropped as forced — holds exactly the same value in every
possible outcome. -/
theorem collapse_frame (bd : Board) (max_bombs : Nat)
    (w : Option ((Nat × Nat) × (Nat × Nat))) :
    ∀ out ∈ bd.collapse max_bombs w, ∀ p : Nat × Nat,
      (p ∉ bd.collapseCandidates w → out.cells p = bd.cells p) ∧
      ((bd.cells p).isQuantum = false → out.cells p = bd.cells p) := by
  intro out hout p
  have hmain : p ∉ bd.collapseCandidates w → out.cells p = bd.cells p := by
    intro hp
    have hreset : (bd.resetBoard w).cells p = bd.cells p :=
      Board.setAll_cells_of_not_mem _ _ _ hp
    rw [Board.collapse] at hout
    by_cases hb : bd.collapseBudget max_bombs w = 0
    · rw [if_pos hb, List.mem_singleton] at hout
      subst hout
      rw [Board.setAll_cells_of_not_mem _ _ _ hp, hreset]
    · rw [if_neg hb] at hout
      by_cases hqc : (bd.collapseCandidates w).isEmpty
      · rw [if_pos hqc, List.mem_singleton] at hout
        subst hout
        exact hreset
      · rw [if_neg hqc, List.mem_cons] at hout
        rcases hout with rfl | hout
        · exact hreset
        · rw [List.mem_map] at hout
          obtain ⟨s, _, rfl⟩ := hout
          have hns : p ∉ bd.collapseSorted w := fun hmem => hp (mem_sortByKey.mp hmem)
          rw [Board.commit_cells_of_not_mem _ _ _ hns, hreset]
  refine ⟨hmain, fun hq => hmain fun hp => ?_⟩
  rw [Board.collapseCandidates_isQuantum hp] at hq
  cases hq

/-- Witness for C9: the Discovered clue cell `(0, 1)` of `exScenario` is not a
candidate and is untouched by the head outcome of collapse. -/
theorem collapse_frame_witness :
    ((0, 1) ∉ exScenario.collapseCandidates none) ∧
    (exScenario.resetBoard none).cells (0, 1) = exScenario.cells (0, 1) :=
  ⟨by decide,
   (collapse_frame exScenario 1 none (exScenario.resetBoard none)
     (List.mem_cons_self _ _) (0, 1)).1 (by decide)⟩

end ClaimC9

section ClaimC8

theorem Board.inBounds_congr {b b' : Board} (hw : b'.width = b.width)
    (hh : b'.height = b.height) (q : Nat × Nat) : b'.inBounds q = b.inBounds q := by
  rw [Board.inBounds, Board.inBounds, hw, hh]

theorem Board.points_congr {b b' : Board} (hw : b'.width = b.width)
    (hh : b'.height = b.height) : b'.points = b.points := by
  rw [Board.points, Board.points, hw, hh]

theorem Board.neighbors_congr {b b' : Board} (hw : b'.width = b.width)
    (hh : b'.height = b.height) (x y : Nat) : b'.neighbors x y = b.neighbors x y := by
  rw [Board.neighbors, Board.neighbors]
  congr 1
  funext d
  rw [neighborProbe, neighborProbe]
  cases checkedAddSigned x d.1 with
  | none => rfl
  | some nx =>
    cases checkedAddSigned y d.2 with
    | none => rfl
    | some ny =>
      simp only [Board.inBounds_congr hw hh]

theorem Board.count_congr {b b' : Board} (hw : b'.width = b.width)
    (hh : b'.height = b.height)
    (hc : ∀ q, (b'.cells q).bomb_count = (b.cells q).bomb_count) (x y : Nat) :
    b'.count_neighboring_bombs x y = b.count_neighboring_bombs x y := by
  rw [Board.count_eq_sums, Board.count_eq_sums, Board.neighbors_congr hw hh]
  have h1 : ((b.neighbors x y).map fun p => (b'.cells p).bomb_count.1)
      = (b.neighbors x y).map fun p => (b.cells p).bomb_count.1 :=
    List.map_congr_left fun p _ => by rw [hc p]
  have h2 : ((b.neighbors x y).map fun p => (b'.cells p).bomb_count.2)
      = (b.neighbors x y).map fun p => (b.cells p).bomb_count.2 :=
    List.map_congr_left fun p _ => by rw [hc p]
  rw [h1, h2]

theorem Board.discoveredTargets_congr {b b' : Board} (hw : b'.width = b.width)
    (hh : b'.height = b.height)
    (hd : ∀ q, (b'.cells q).isDiscovered = (b.cells q).isDiscovered) :
    b'.discoveredTargets = b.discoveredTargets := by
  rw [Board.discoveredTargets, Board.discoveredTargets, Board.points_congr hw hh]
  exact List.filter_congr fun p _ => hd p

theorem Board.fill_write_dims :
    ∀ (pairs : List ((Nat × Nat) × Nat)) (bd bd2 : Board),
      bd.fill_write pairs = some bd2 → bd2.width = bd.width ∧ bd2.height = bd.height := by
  intro pairs
  induction pairs with
  | nil =>
    intro bd bd2 h
    cases h
    exact ⟨rfl, rfl⟩
  | cons pv rest ih =>
    intro bd bd2 h
    rw [Board.fill_write] at h
    have hcont : (bd.set pv.1 (.Discovered (some pv.2))).fill_write rest = some bd2 →
        bd2.width = bd.width ∧ bd2.height = bd.height := by
      intro hrec
      obtain ⟨h1, h2⟩ := ih (bd.set pv.1 (.Discovered (some pv.2))) bd2 hrec
      exact ⟨h1.trans (Board.set_width _ _ _), h2.trans (Board.set_height _ _ _)⟩
    split at h
    · split at h
      · exact hcont h
      · cases h
    · exact hcont h

theorem Board.fill_write_cells_of_not_mem :
    ∀ (pairs : List ((Nat × Nat) × Nat)) (bd bd2 : Board),
      bd.fill_write pairs = some bd2 →
      ∀ {q : Nat × Nat}, q ∉ pairs.map Prod.fst → bd2.cells q = bd.cells q := by
  intro pairs
  induction pairs with
  | nil =>
    intro bd bd2 h q _
    cases h
    rfl
  | cons pv rest ih =>
    intro bd bd2 h q hq
    rw [List.map_cons, List.mem_cons] at hq
    push_neg at hq
    rw [Board.fill_write] at h
    have hcont : (bd.set pv.1 (.Discovered (some pv.2))).fill_write rest = some bd2 →
        bd2.cells q = bd.cells q := by
      intro hrec
      rw [ih _ _ hrec hq.2, Board.set_cells_of_ne bd _ _ hq.1]
    split at h
    · split at h
      · exact hcont h
      · cases h
    · exact hcont h

theorem Board.fill_write_preserves :
    ∀ (pairs : List ((Nat × Nat) × Nat)) (bd bd2 : Board),
      (∀ pv ∈ pairs, (bd.cells pv.1).isDiscovered = true) →
      bd.fill_write pairs = some bd2 →
      ∀ q, (bd2.cells q).bomb_count = (bd.cells q).bomb_count ∧
           (bd2.cells q).isDiscovered = (bd.cells q).isDiscovered := by
  intro pairs
  induction pairs with
  | nil =>
    intro bd bd2 _ h q
    cases h
    exact ⟨rfl, rfl⟩
  | cons pv rest ih =>
    intro bd bd2 hdisc h
    rw [Board.fill_write] at h
    have hcont : (bd.set pv.1 (.Discovered (some pv.2))).fill_write rest = some bd2 →
        ∀ q, (bd2.cells q).bomb_count = (bd.cells q).bomb_count ∧
             (bd2.cells q).isDiscovered = (bd.cells q).isDiscovered := by
      intro hrec q
      have hdisc' : ∀ pw ∈ rest,
          ((bd.set pv.1 (.Discovered (some pv.2))).cells pw.1).isDiscovered = true := by
        intro pw hpw
        by_cases hpq : pw.1 = pv.1
        · rw [hpq, Board.set_cells_self]
          rfl
        · rw [Board.set_cells_of_ne bd _ _ hpq]
          exact hdisc pw (List.mem_cons_of_mem _ hpw)
      have hstep : ∀ q' : Nat × Nat,
          (((bd.set pv.1 (.Discovered (some pv.2))).cells q').bomb_count
            = (bd.cells q').bomb_count) ∧
          (((bd.set pv.1 (.Discovered (some pv.2))).cells q').isDiscovered
            = (bd.cells q').isDiscovered) := by
        intro q'
        by_cases hq' : q' = pv.1
        · subst hq'
          rw [Board.set_cells_self]
          have hd := hdisc pv (List.mem_cons_self _ _)
          rcases hcv : bd.cells pv.1 with v | n | bb
          · rw [hcv] at hd; cases hd
          · exact ⟨rfl, rfl⟩
          · rw [hcv] at hd; cases hd
        · rw [Board.set_cells_of_ne bd _ _ hq']
          exact ⟨rfl, rfl⟩
      obtain ⟨h1, h2⟩ := ih _ _ hdisc' hrec q
      rw [h1, h2]
      exact hstep q
    split at h
    · split at h
      · exact hcont h
      · cases h
    · exact hcont h

theorem Board.fill_write_result :
    ∀ (pairs : List ((Nat × Nat) × Nat)) (bd bd2 : Board),
      (pairs.map Prod.fst).Nodup → bd.fill_write pairs = some bd2 →
      ∀ pv ∈ pairs, bd2.cells pv.1 = .Discovered (some pv.2) := by
  intro pairs
  induction pairs with
  | nil =>
    intro bd bd2 _ _ pv hpv
    cases hpv
  | cons pv rest ih =>
    intro bd bd2 hnd h pw hpw
    rw [List.map_cons, List.nodup_cons] at hnd
    rw [Board.fill_write] at h
    have hcont : (bd.set pv.1 (.Discovered (some pv.2))).fill_write rest = some bd2 →
        bd2.cells pw.1 = .Discovered (some pw.2) := by
      intro hrec
      rcases List.mem_cons.mp hpw with rfl | hpw'
      · rw [Board.fill_write_cells_of_not_mem rest _ _ hrec hnd.1, Board.set_cells_self]
      · exact ih _ _ hnd.2 hrec pw hpw'
    split at h
    · split at h
      · exact hcont h
      · cases h
    · exact hcont h

theorem Board.fill_write_fixed :
    ∀ (pairs : List ((Nat × Nat) × Nat)) (bd : Board),
      (∀ pv ∈ pairs, bd.cells pv.1 = .Discovered (some pv.2)) →
      bd.fill_write pairs = some bd := by
  intro pairs
  induction pairs with
  | nil => intro bd _; rfl
  | cons pv rest ih =>
    intro bd hall
    have hc := hall pv (List.mem_cons_self _ _)
    rw [Board.fill_write, hc]
    simp only [if_pos]
    rw [Board.set_eq_self hc]
    exact ih bd fun pw hpw => hall pw (List.mem_cons_of_mem _ hpw)

theorem Board.fill_pairs_keys :
    ∀ (l : List (Nat × Nat)) (bd : Board) (pairs : List ((Nat × Nat) × Nat)),
      bd.fill_pairs l = some pairs → pairs.map Prod.fst = l := by
  intro l
  induction l with
  | nil =>
    intro bd pairs h
    cases h
    rfl
  | cons p rest ih =>
    intro bd pairs h
    rw [Board.fill_pairs] at h
    split at h
    · rcases hrec : bd.fill_pairs rest with _ | pairs'
      · rw [hrec] at h; cases h
      · rw [hrec] at h
        simp only [Option.map_some'] at h
        cases h
        simp [ih _ _ hrec]
    · cases h

theorem Board.fill_pairs_congr {b b' : Board} :
    ∀ l : List (Nat × Nat),
      (∀ p ∈ l, b'.count_neighboring_bombs p.1 p.2 = b.count_neighboring_bombs p.1 p.2) →
      b'.fill_pairs l = b.fill_pairs l := by
  intro l
  induction l with
  | nil => intro _; rfl
  | cons p rest ih =>
    intro hc
    rw [Board.fill_pairs, Board.fill_pairs, hc p (List.mem_cons_self _ _),
      ih fun q hq => hc q (List.mem_cons_of_mem _ hq)]

/-- C8: `fill_discovered` is idempotent: when it succeeds, running it again on
the result succeeds and returns the very same board. -/
theorem fill_discovered_idempotent (b b1 : Board)
    (h : b.fill_discovered = some b1) : b1.fill_discovered = some b1 := by
  rw [Board.fill_discovered] at h
  rcases hp : b.fill_pairs b.discoveredTargets with _ | pairs
  · rw [hp] at h; cases h
  · rw [hp, Option.some_bind] at h
    have hkeys : pairs.map Prod.fst = b.discoveredTargets := Board.fill_pairs_keys _ _ _ hp
    have hdiscAll : ∀ pv ∈ pairs, (b.cells pv.1).isDiscovered = true := by
      intro pv hpv
      have hmem : pv.1 ∈ b.discoveredTargets := by
        rw [← hkeys]
        exact List.mem_map_of_mem Prod.fst hpv
      rw [Board.discoveredTargets, List.mem_filter] at hmem
      exact hmem.2
    have hpres := Board.fill_write_preserves pairs b b1 hdiscAll h
    obtain ⟨hw, hh⟩ := Board.fill_write_dims pairs b b1 h
    have hcount : ∀ x y : Nat,
        b1.count_neighboring_bombs x y = b.count_neighboring_bombs x y :=
      Board.count_congr hw hh fun q => (hpres q).1
    have htargets : b1.discoveredTargets = b.discoveredTargets :=
      Board.discoveredTargets_congr hw hh fun q => (hpres q).2
    have hpairs1 : b1.fill_pairs b1.discoveredTargets = some pairs := by
      rw [htargets, Board.fill_pairs_congr _ fun p _ => hcount p.1 p.2]
      exact hp
    have hndkeys : (pairs.map Prod.fst).Nodup := by
      rw [hkeys]
      exact b.points_nodup.filter _
    have hfixed := Board.fill_write_result pairs b b1 hndkeys h
    rw [Board.fill_discovered, hpairs1, Option.some_bind]
    exact Board.fill_write_fixed pairs b1 hfixed

/-- The board `fill_discovered` produces from `exFill`. -/
def exFillResult : Board := exFill.set (0, 0) (.Discovered (some 1))

/-- Witness for C8: filling `exFill` succeeds, and filling the result again
returns it unchanged. -/
theorem fill_discovered_idempotent_witness :
    exFill.fill_discovered = some exFillResult ∧
    exFillResult.fill_discovered = some exFillResult :=
  ⟨rfl, fill_discovered_idempotent exFill exFillResult rfl⟩

end ClaimC8
